import Mathlib

/-
Verification of the `magic-spells/event-emitter` package
(src/dist/event-emitter.cjs.js) against its natural-language
specification.

The class `EventEmitter` owns a private `#events : Map` from event-name
strings to arrays of listener functions.  We embed that state as an
association list with the insertion-order semantics of a JS `Map`:
`get` reads the first entry with the key, `set` overwrites the first
entry in place (or appends a fresh entry at the end), `delete` removes
the entry, `clear` empties the map.

JS functions are compared by reference identity; we model a JS value
that may be passed as a listener by `Value`: a function with an identity
tag, or a non-function value.  A thrown JS exception is an
`Except.error` carrying the message.  The observable behaviour of a
dispatch is recorded as a trace: one `call` entry per listener
invocation attempt (in order, with the forwarded arguments) and one
`errorReport` entry per `console.error` diagnostic.
-/

namespace EventEmitterSpec

/-- Dispatch arguments are opaque tokens; only their identity and order matter. -/
abbrev Arg := Nat

/-- A JS value supplied as a listener: a function (identified by reference
identity, encoded as a tag) or a non-function value. -/
inductive Value where
  | fn (id : Nat)
  | notFn (tag : Nat)
deriving DecidableEq, Repr

/-- Mirrors the JS test `typeof listener === "function"`. -/
def Value.isFunction : Value → Bool
  | .fn _ => true
  | .notFn _ => false

/-- The private `#events` map: event name to array of listeners. -/
abbrev EventMap := List (String × List Value)

/-- `Map.prototype.get`: value of the first entry with this key. -/
def mapGet : EventMap → String → Option (List Value)
  | [], _ => none
  | (k, v) :: rest, key => if k = key then some v else mapGet rest key

/-- `Map.prototype.set`: overwrite the first entry with this key in place,
or append a fresh entry at the end. -/
def mapSet : EventMap → String → List Value → EventMap
  | [], key, val => [(key, val)]
  | (k, v) :: rest, key, val =>
    if k = key then (key, val) :: rest else (k, v) :: mapSet rest key val

/-- `Map.prototype.delete`: remove the entry with this key. -/
def mapDelete : EventMap → String → EventMap
  | [], _ => []
  | (k, v) :: rest, key => if k = key then rest else (k, v) :: mapDelete rest key

/-- The emitter state: the contents of its private `#events` map. -/
structure EventEmitter where
  events : EventMap
deriving DecidableEq, Repr

/-- `new EventEmitter()`: the map starts empty. -/
def EventEmitter.new : EventEmitter := ⟨[]⟩

/-- `on(event, listener)` from the source: throw a `TypeError` when the
listener is not a function; otherwise fetch the array (or a fresh empty
one), push the listener unless it is already included, and store the
array back under the key.  Returns `this`, i.e. the updated state. -/
def EventEmitter.on (e : EventEmitter) (event : String) (listener : Value) :
    Except String EventEmitter :=
  if listener.isFunction = false then
    Except.error "Listener must be a function"
  else
    let listeners := (mapGet e.events event).getD []
    let listeners := if listener ∈ listeners then listeners
                     else listeners ++ [listener]
    Except.ok ⟨mapSet e.events event listeners⟩

/-- `Array.prototype.indexOf`: index of the first element identical to
the argument; `none` stands for the JS result `-1`. -/
def jsIndexOf : List Value → Value → Option Nat
  | [], _ => none
  | x :: xs, a => if x = a then some 0 else (jsIndexOf xs a).map (· + 1)

/-- `off(event, listener)` from the source: if the key has no array,
return `this`; otherwise find the index of the listener with `indexOf`,
and when found splice it out, deleting the key when the array becomes
empty.  The source contains no throw. -/
def off (e : EventEmitter) (event : String) (listener : Value) : EventEmitter :=
  match mapGet e.events event with
  | none => e
  | some listeners =>
    match jsIndexOf listeners listener with
    | none => e
    | some index =>
      let remaining := listeners.eraseIdx index
      if remaining.length = 0 then ⟨mapDelete e.events event⟩
      else ⟨mapSet e.events event remaining⟩

/-- What each registered function does when invoked: `none` means it
returns normally, `some msg` means it throws an error with that message. -/
abbrev Behavior := Nat → List Arg → Option String

/-- One observable step of a dispatch: an invocation attempt of a
listener with the forwarded arguments, or a `console.error` diagnostic
naming the event and the caught error. -/
inductive TraceEntry where
  | call (v : Value) (args : List Arg)
  | errorReport (event : String) (err : String)
deriving DecidableEq, Repr

/-- The JS expression `listeners[i].apply(this, args)`: invoking a
function either returns or throws per its behavior; invoking a
non-function value throws a `TypeError`. -/
def callListener (beh : Behavior) (args : List Arg) (v : Value) :
    Except String Unit :=
  match v with
  | .fn id =>
    match beh id args with
    | none => Except.ok ()
    | some err => Except.error err
  | .notFn _ => Except.error "TypeError: listener is not a function"

/-- The `for` loop of `emit`: each iteration attempts the invocation
inside its own `try`; a thrown error is caught right there and reported
via `console.error`, then the loop continues with the next listener. -/
def emitLoop (beh : Behavior) (event : String) (args : List Arg) :
    List Value → List TraceEntry
  | [] => []
  | v :: vs =>
    (match callListener beh args v with
     | Except.ok _ => [TraceEntry.call v args]
     | Except.error err =>
        [TraceEntry.call v args, TraceEntry.errorReport event err]) ++
    emitLoop beh event args vs

/-- `emit(event, ...args)` from the source: return `false` when the key
has no array or the array is empty; otherwise run the loop over the
listeners and return `true`.  The result pairs the returned boolean with
the observable trace; the `Except` layer records that the surrounding
code can in principle propagate a JS exception to the caller. -/
def emit (beh : Behavior) (e : EventEmitter) (event : String)
    (args : List Arg) : Except String (Bool × List TraceEntry) :=
  match mapGet e.events event with
  | none => Except.ok (false, [])
  | some listeners =>
    if listeners.length = 0 then Except.ok (false, [])
    else Except.ok (true, emitLoop beh event args listeners)

/-- `removeAllListeners(event)` from the source.  The guard is the JS
truthiness test `if (event)`: both `undefined` (the argument omitted)
and the empty string are falsy, so both take the clear-all branch. -/
def removeAllListeners (e : EventEmitter) (event : Option String) :
    EventEmitter :=
  match event with
  | some s => if s = "" then ⟨[]⟩ else ⟨mapDelete e.events s⟩
  | none => ⟨[]⟩

/-- A public-interface call, for describing reachable states. -/
inductive Op where
  | register (event : String) (l : Value)
  | unregister (event : String) (l : Value)
  | dispatch (event : String) (args : List Arg)
  | clear (event : Option String)

/-- The state after one public call.  A `register` that throws leaves
the map untouched (the throw precedes any mutation); `dispatch` never
mutates the map. -/
def applyOp (e : EventEmitter) : Op → EventEmitter
  | .register ev l =>
    match e.on ev l with
    | Except.ok e1 => e1
    | Except.error _ => e
  | .unregister ev l => off e ev l
  | .dispatch _ _ => e
  | .clear ev => removeAllListeners e ev

/-- The state reached from a fresh emitter by a sequence of public calls. -/
def runOps (ops : List Op) : EventEmitter :=
  ops.foldl applyOp EventEmitter.new

/-- The invocation attempts of a trace, in order, with their arguments. -/
def callsOf : List TraceEntry → List (Value × List Arg)
  | [] => []
  | TraceEntry.call v a :: rest => (v, a) :: callsOf rest
  | TraceEntry.errorReport _ _ :: rest => callsOf rest

/-- The listeners invoked by a trace, in order. -/
def calledValues (t : List TraceEntry) : List Value :=
  (callsOf t).map Prod.fst

/-- Keys currently present in the map. -/
def keysOf (m : EventMap) : List String := m.map Prod.fst

/-- Well-formedness of the assoc-list encoding: a JS `Map` cannot hold
two entries with the same key. -/
def WFMap (m : EventMap) : Prop := (keysOf m).Nodup

/-- The data-model invariant of the spec: every present key has a
non-empty listener array, with no duplicate listener in it. -/
def Invariant (e : EventEmitter) : Prop :=
  ∀ p ∈ e.events, p.2 ≠ [] ∧ p.2.Nodup

/-! ### Lemmas about the `Map` encoding -/

theorem mapGet_mapSet_self (m : EventMap) (k : String) (v : List Value) :
    mapGet (mapSet m k v) k = some v := by
  induction m with
  | nil => simp [mapGet, mapSet]
  | cons p rest ih =>
    obtain ⟨a, w⟩ := p
    by_cases hak : a = k <;> simp [mapGet, mapSet, hak, ih]

theorem mapGet_mapSet_ne (m : EventMap) (k q : String) (v : List Value)
    (h : q ≠ k) : mapGet (mapSet m k v) q = mapGet m q := by
  induction m with
  | nil => simp [mapGet, mapSet, Ne.symm h]
  | cons p rest ih =>
    obtain ⟨a, w⟩ := p
    by_cases hak : a = k
    · subst hak
      simp [mapGet, mapSet, Ne.symm h]
    · by_cases haq : a = q <;> simp [mapGet, mapSet, hak, haq, ih, h]

theorem mapGet_mapDelete_ne (m : EventMap) (k q : String)
    (h : q ≠ k) : mapGet (mapDelete m k) q = mapGet m q := by
  induction m with
  | nil => simp [mapDelete]
  | cons p rest ih =>
    obtain ⟨a, w⟩ := p
    by_cases hak : a = k
    · subst hak
      simp [mapGet, mapDelete, Ne.symm h]
    · by_cases haq : a = q <;> simp [mapGet, mapDelete, hak, haq, ih, h]

theorem mapDelete_not_mem (m : EventMap) (k : String)
    (h : mapGet m k = none) : mapDelete m k = m := by
  induction m with
  | nil => simp [mapDelete]
  | cons p rest ih =>
    obtain ⟨a, w⟩ := p
    by_cases hak : a = k
    · simp [mapGet, hak] at h
    · simp [mapGet, hak] at h
      simp [mapDelete, hak, ih h]

theorem mapGet_mem (m : EventMap) (k : String) (v : List Value)
    (h : mapGet m k = some v) : (k, v) ∈ m := by
  induction m with
  | nil => simp [mapGet] at h
  | cons p rest ih =>
    obtain ⟨a, w⟩ := p
    by_cases hak : a = k
    · subst hak
      simp [mapGet] at h
      simp [h]
    · simp [mapGet, hak] at h
      exact List.mem_cons_of_mem _ (ih h)

theorem mem_mapSet (m : EventMap) (k : String) (v : List Value)
    (p : String × List Value) (h : p ∈ mapSet m k v) :
    p = (k, v) ∨ p ∈ m := by
  induction m with
  | nil => exact Or.inl (by simpa [mapSet] using h)
  | cons q rest ih =>
    obtain ⟨a, w⟩ := q
    by_cases hak : a = k
    · subst hak
      rcases (by simpa [mapSet] using h : p = (a, v) ∨ p ∈ rest) with h1 | h1
      · exact Or.inl h1
      · exact Or.inr (List.mem_cons_of_mem _ h1)
    · rcases (by simpa [mapSet, hak] using h :
          p = (a, w) ∨ p ∈ mapSet rest k v) with h1 | h1
      · exact Or.inr (by simp [h1])
      · rcases ih h1 with h2 | h2
        · exact Or.inl h2
        · exact Or.inr (List.mem_cons_of_mem _ h2)

theorem mem_mapDelete (m : EventMap) (k : String)
    (p : String × List Value) (h : p ∈ mapDelete m k) : p ∈ m := by
  induction m with
  | nil => simp [mapDelete] at h
  | cons q rest ih =>
    obtain ⟨a, w⟩ := q
    by_cases hak : a = k
    · subst hak
      exact List.mem_cons_of_mem _ (by simpa [mapDelete] using h)
    · rcases (by simpa [mapDelete, hak] using h :
          p = (a, w) ∨ p ∈ mapDelete rest k) with h1 | h1
      · simp [h1]
      · exact List.mem_cons_of_mem _ (ih h1)

theorem mapSet_same (m : EventMap) (k : String) (v : List Value)
    (h : mapGet m k = some v) : mapSet m k v = m := by
  induction m with
  | nil => simp [mapGet] at h
  | cons p rest ih =>
    obtain ⟨a, w⟩ := p
    by_cases hak : a = k
    · subst hak
      simp [mapGet] at h
      simp [mapSet, h]
    · simp [mapGet, hak] at h
      simp [mapSet, hak, ih h]

theorem keysOf_cons (a : String) (w : List Value) (rest : EventMap) :
    keysOf ((a, w) :: rest) = a :: keysOf rest := rfl

theorem mem_keysOf_cons (a : String) (w : List Value)
    (rest : EventMap) (k : String) :
    k ∈ keysOf ((a, w) :: rest) ↔ k = a ∨ k ∈ keysOf rest := by
  simp [keysOf]

theorem mapGet_eq_none_of_not_mem_keys (m : EventMap) (k : String)
    (h : k ∉ keysOf m) : mapGet m k = none := by
  induction m with
  | nil => simp [mapGet]
  | cons p rest ih =>
    obtain ⟨a, w⟩ := p
    rw [mem_keysOf_cons] at h
    push_neg at h
    simp [mapGet, Ne.symm h.1, ih h.2]

theorem keysOf_mapSet_of_mem (m : EventMap) (k : String) (v : List Value)
    (h : k ∈ keysOf m) : keysOf (mapSet m k v) = keysOf m := by
  induction m with
  | nil => simp [keysOf] at h
  | cons p rest ih =>
    obtain ⟨a, w⟩ := p
    by_cases hak : a = k
    · subst hak
      simp [mapSet, keysOf]
    · rw [mem_keysOf_cons] at h
      rcases h with h | h
      · exact absurd h.symm hak
      · rw [show mapSet ((a, w) :: rest) k v = (a, w) :: mapSet rest k v from
          by simp [mapSet, hak], keysOf_cons, keysOf_cons, ih h]

theorem keysOf_mapSet_of_not_mem (m : EventMap) (k : String) (v : List Value)
    (h : k ∉ keysOf m) : keysOf (mapSet m k v) = keysOf m ++ [k] := by
  induction m with
  | nil => simp [mapSet, keysOf]
  | cons p rest ih =>
    obtain ⟨a, w⟩ := p
    rw [mem_keysOf_cons] at h
    push_neg at h
    rw [show mapSet ((a, w) :: rest) k v = (a, w) :: mapSet rest k v from
      by simp [mapSet, Ne.symm h.1], keysOf_cons, keysOf_cons, ih h.2]
    simp

theorem WFMap_mapSet (m : EventMap) (k : String) (v : List Value)
    (h : WFMap m) : WFMap (mapSet m k v) := by
  unfold WFMap at h ⊢
  by_cases hk : k ∈ keysOf m
  · rw [keysOf_mapSet_of_mem m k v hk]
    exact h
  · rw [keysOf_mapSet_of_not_mem m k v hk]
    exact List.Nodup.append h (by simp)
      (by simpa [List.disjoint_singleton] using hk)

theorem keysOf_mapDelete_sublist (m : EventMap) (k : String) :
    (keysOf (mapDelete m k)).Sublist (keysOf m) := by
  induction m with
  | nil => simp [mapDelete]
  | cons p rest ih =>
    obtain ⟨a, w⟩ := p
    by_cases hak : a = k
    · subst hak
      rw [show mapDelete ((a, w) :: rest) a = rest from by simp [mapDelete],
        keysOf_cons]
      exact List.sublist_cons_self _ _
    · rw [show mapDelete ((a, w) :: rest) k = (a, w) :: mapDelete rest k from
        by simp [mapDelete, hak], keysOf_cons, keysOf_cons]
      exact List.Sublist.cons₂ _ ih

theorem WFMap_mapDelete (m : EventMap) (k : String)
    (h : WFMap m) : WFMap (mapDelete m k) :=
  List.Nodup.sublist (keysOf_mapDelete_sublist m k) h

theorem WFMap_tail (a : String) (w : List Value) (rest : EventMap)
    (h : WFMap ((a, w) :: rest)) : WFMap rest := by
  unfold WFMap at h ⊢
  rw [keysOf_cons, List.nodup_cons] at h
  exact h.2

theorem not_mem_keys_of_WFMap_cons (a : String) (w : List Value)
    (rest : EventMap) (h : WFMap ((a, w) :: rest)) : a ∉ keysOf rest := by
  unfold WFMap at h
  rw [keysOf_cons, List.nodup_cons] at h
  exact h.1

theorem mapGet_mapDelete_self (m : EventMap) (k : String)
    (h : WFMap m) : mapGet (mapDelete m k) k = none := by
  induction m with
  | nil => simp [mapDelete, mapGet]
  | cons p rest ih =>
    obtain ⟨a, w⟩ := p
    by_cases hak : a = k
    · subst hak
      simp [mapDelete]
      exact mapGet_eq_none_of_not_mem_keys rest a
        (not_mem_keys_of_WFMap_cons a w rest h)
    · simp [mapDelete, mapGet, hak, ih (WFMap_tail a w rest h)]

/-! ### Lemmas about `indexOf` and splicing -/

theorem jsIndexOf_eq_none (ls : List Value) (a : Value) :
    jsIndexOf ls a = none ↔ a ∉ ls := by
  induction ls with
  | nil => simp [jsIndexOf]
  | cons x xs ih =>
    by_cases hxa : x = a
    · subst hxa
      simp [jsIndexOf]
    · simp [jsIndexOf, hxa, Ne.symm hxa, ih]

theorem jsIndexOf_of_mem (ls : List Value) (a : Value) (h : a ∈ ls) :
    ∃ i, jsIndexOf ls a = some i := by
  cases hi : jsIndexOf ls a with
  | none => exact absurd ((jsIndexOf_eq_none ls a).mp hi) (by simp [h])
  | some i => exact ⟨i, rfl⟩

theorem eraseIdx_jsIndexOf (ls : List Value) (a : Value) :
    ∀ i, jsIndexOf ls a = some i → ls.eraseIdx i = ls.erase a := by
  induction ls with
  | nil => intro i h; simp [jsIndexOf] at h
  | cons x xs ih =>
    intro i h
    by_cases hxa : x = a
    · subst hxa
      simp [jsIndexOf] at h
      subst h
      simp [List.eraseIdx, List.erase_cons_head]
    · simp [jsIndexOf, hxa] at h
      obtain ⟨j, hj, hij⟩ := h
      subst hij
      rw [List.eraseIdx_cons_succ, ih j hj,
        List.erase_cons_tail (by simp [hxa])]

/-! ### Lemmas about the dispatch loop and its trace -/

theorem callsOf_append (t1 t2 : List TraceEntry) :
    callsOf (t1 ++ t2) = callsOf t1 ++ callsOf t2 := by
  induction t1 with
  | nil => simp [callsOf]
  | cons x rest ih => cases x <;> simp [callsOf, ih]

theorem callsOf_emitLoop (beh : Behavior) (ev : String) (args : List Arg)
    (ls : List Value) :
    callsOf (emitLoop beh ev args ls) = ls.map (fun v => (v, args)) := by
  induction ls with
  | nil => simp [emitLoop, callsOf]
  | cons v vs ih =>
    rw [emitLoop, callsOf_append, ih]
    cases callListener beh args v <;> simp [callsOf]

theorem calledValues_emitLoop (beh : Behavior) (ev : String)
    (args : List Arg) (ls : List Value) :
    calledValues (emitLoop beh ev args ls) = ls := by
  rw [calledValues, callsOf_emitLoop]
  induction ls with
  | nil => rfl
  | cons v vs ih => simpa using ih

theorem errorReport_mem_emitLoop (beh : Behavior) (ev : String)
    (args : List Arg) (ls : List Value) (v : Value) (err : String)
    (hv : v ∈ ls) (he : callListener beh args v = Except.error err) :
    TraceEntry.errorReport ev err ∈ emitLoop beh ev args ls := by
  induction ls with
  | nil => simp at hv
  | cons x xs ih =>
    rw [emitLoop]
    rcases List.mem_cons.mp hv with h1 | h1
    · subst h1
      rw [he]
      simp
    · exact List.mem_append_right _ (ih h1)

theorem emit_nonempty (beh : Behavior) (e : EventEmitter) (ev : String)
    (args : List Arg) (ls : List Value) (h : mapGet e.events ev = some ls)
    (hne : ls ≠ []) :
    emit beh e ev args = Except.ok (true, emitLoop beh ev args ls) := by
  unfold emit
  rw [h]
  simp [hne]

theorem emit_congr (beh : Behavior) (e1 e2 : EventEmitter) (ev : String)
    (args : List Arg) (h : mapGet e1.events ev = mapGet e2.events ev) :
    emit beh e1 ev args = emit beh e2 ev args := by
  unfold emit
  rw [h]

/-! ### Decomposing `on` -/

theorem on_eq_error (e : EventEmitter) (ev : String) (l : Value)
    (hf : l.isFunction = false) :
    e.on ev l = Except.error "Listener must be a function" := by
  unfold EventEmitter.on
  rw [hf]
  simp

theorem on_eq_ok (e : EventEmitter) (ev : String) (l : Value)
    (hf : l.isFunction = true) :
    e.on ev l = Except.ok
      ⟨mapSet e.events ev
        (if l ∈ (mapGet e.events ev).getD [] then (mapGet e.events ev).getD []
         else (mapGet e.events ev).getD [] ++ [l])⟩ := by
  unfold EventEmitter.on
  rw [hf]
  simp

theorem isFunction_of_on_ok (e e1 : EventEmitter) (ev : String) (l : Value)
    (h : e.on ev l = Except.ok e1) : l.isFunction = true := by
  cases hf : l.isFunction with
  | false => rw [on_eq_error e ev l hf] at h; exact absurd h (by simp)
  | true => rfl

/-! ### Decomposing `off` and `removeAllListeners` -/

theorem off_eq_no_event (e : EventEmitter) (ev : String) (l : Value)
    (h : mapGet e.events ev = none) : off e ev l = e := by
  simp only [off, h]

theorem off_eq_not_found (e : EventEmitter) (ev : String) (l : Value)
    (ls : List Value) (h : mapGet e.events ev = some ls) (hl : l ∉ ls) :
    off e ev l = e := by
  simp only [off, h, (jsIndexOf_eq_none ls l).mpr hl]

theorem off_eq_found (e : EventEmitter) (ev : String) (l : Value)
    (ls : List Value) (h : mapGet e.events ev = some ls) (hl : l ∈ ls) :
    off e ev l =
      if ls.erase l = [] then ⟨mapDelete e.events ev⟩
      else ⟨mapSet e.events ev (ls.erase l)⟩ := by
  obtain ⟨i, hi⟩ := jsIndexOf_of_mem ls l hl
  simp only [off, h, hi, eraseIdx_jsIndexOf ls l i hi]
  by_cases hnil : ls.erase l = []
  · simp [hnil]
  · simp [hnil, List.length_eq_zero]

theorem removeAllListeners_omitted (e : EventEmitter) :
    removeAllListeners e none = ⟨[]⟩ := rfl

theorem removeAllListeners_empty_string (e : EventEmitter) :
    removeAllListeners e (some "") = ⟨[]⟩ := by
  simp [removeAllListeners]

theorem removeAllListeners_some (e : EventEmitter) (s : String)
    (hs : s ≠ "") : removeAllListeners e (some s) = ⟨mapDelete e.events s⟩ := by
  simp only [removeAllListeners, if_neg hs]

/-! ### Preservation of the data-model invariant -/

/-- Both the `Map` encoding well-formedness and the spec invariant. -/
def StrongInv (e : EventEmitter) : Prop := WFMap e.events ∧ Invariant e

theorem StrongInv_nil : StrongInv ⟨[]⟩ := by
  constructor
  · simp [WFMap, keysOf]
  · intro p hp
    simp at hp

theorem StrongInv_new : StrongInv EventEmitter.new := StrongInv_nil

theorem StrongInv_on (e e1 : EventEmitter) (ev : String) (l : Value)
    (hinv : StrongInv e) (h : e.on ev l = Except.ok e1) : StrongInv e1 := by
  have hf := isFunction_of_on_ok e e1 ev l h
  rw [on_eq_ok e ev l hf] at h
  obtain ⟨hwf, hI⟩ := hinv
  set ls := (mapGet e.events ev).getD [] with hls
  set ls1 := if l ∈ ls then ls else ls ++ [l] with hls1
  have he1 : e1.events = mapSet e.events ev ls1 := by
    have h2 := congrArg EventEmitter.events (Except.ok.inj h)
    exact h2.symm
  have hls1ok : ls1 ≠ [] ∧ ls1.Nodup := by
    cases hget : mapGet e.events ev with
    | none =>
      have hnil : ls = [] := by rw [hls, hget]; rfl
      rw [hls1, hnil]
      simp
    | some ls0 =>
      have hmem := mapGet_mem e.events ev ls0 hget
      have h0 := hI (ev, ls0) hmem
      have heq : ls = ls0 := by rw [hls, hget]; rfl
      rw [hls1, heq]
      by_cases hin : l ∈ ls0
      · simpa [hin] using h0
      · constructor
        · simp [hin]
        · simp [hin, List.nodup_append, h0.2, List.disjoint_singleton]
  constructor
  · rw [he1]
    exact WFMap_mapSet e.events ev ls1 hwf
  · intro p hp
    rw [he1] at hp
    rcases mem_mapSet e.events ev ls1 p hp with h1 | h1
    · rw [h1]
      exact hls1ok
    · exact hI p h1

theorem StrongInv_off (e : EventEmitter) (ev : String) (l : Value)
    (hinv : StrongInv e) : StrongInv (off e ev l) := by
  obtain ⟨hwf, hI⟩ := hinv
  cases hget : mapGet e.events ev with
  | none =>
    rw [off_eq_no_event e ev l hget]
    exact ⟨hwf, hI⟩
  | some listeners =>
    by_cases hl : l ∈ listeners
    · rw [off_eq_found e ev l listeners hget hl]
      have h0 := hI (ev, listeners) (mapGet_mem e.events ev listeners hget)
      by_cases hnil : listeners.erase l = []
      · rw [if_pos hnil]
        exact ⟨WFMap_mapDelete _ _ hwf,
          fun p hp => hI p (mem_mapDelete _ _ p hp)⟩
      · rw [if_neg hnil]
        refine ⟨WFMap_mapSet _ _ _ hwf, ?_⟩
        intro p hp
        rcases mem_mapSet _ _ _ p hp with h1 | h1
        · rw [h1]
          exact ⟨hnil, List.Nodup.erase l h0.2⟩
        · exact hI p h1
    · rw [off_eq_not_found e ev l listeners hget hl]
      exact ⟨hwf, hI⟩

theorem StrongInv_removeAllListeners (e : EventEmitter) (ev : Option String)
    (hinv : StrongInv e) : StrongInv (removeAllListeners e ev) := by
  cases ev with
  | none =>
    rw [removeAllListeners_omitted]
    exact StrongInv_nil
  | some s =>
    by_cases hs : s = ""
    · subst hs
      rw [removeAllListeners_empty_string]
      exact StrongInv_nil
    · rw [removeAllListeners_some e s hs]
      obtain ⟨hwf, hI⟩ := hinv
      exact ⟨WFMap_mapDelete _ _ hwf, fun p hp => hI p (mem_mapDelete _ _ p hp)⟩

theorem StrongInv_applyOp (e : EventEmitter) (op : Op)
    (hinv : StrongInv e) : StrongInv (applyOp e op) := by
  cases op with
  | register ev l =>
    simp only [applyOp]
    cases h : e.on ev l with
    | ok e1 => exact StrongInv_on e e1 ev l hinv h
    | error msg => exact hinv
  | unregister ev l => exact StrongInv_off e ev l hinv
  | dispatch ev args => exact hinv
  | clear ev => exact StrongInv_removeAllListeners e ev hinv

theorem StrongInv_foldl (ops : List Op) (e : EventEmitter)
    (hinv : StrongInv e) : StrongInv (ops.foldl applyOp e) := by
  induction ops generalizing e with
  | nil => exact hinv
  | cons op rest ih => exact ih (applyOp e op) (StrongInv_applyOp e op hinv)

theorem StrongInv_runOps (ops : List Op) : StrongInv (runOps ops) :=
  StrongInv_foldl ops EventEmitter.new StrongInv_new

/-! ### Concrete behaviors used by witnesses -/

/-- A behavior where every listener returns normally. -/
def behNone : Behavior := fun _ _ => none

/-- A behavior where the function tagged 0 throws "boom" and every
other function returns normally. -/
def behBoom : Behavior := fun id _ => if id = 0 then some "boom" else none

/-! ### Claims -/

/-- C1 counterexample: the claim says `clear(eventName)` deletes exactly
the key `eventName` even for the empty string, leaving every other
event's listeners unchanged.  But `removeAllListeners` guards with the
JS truthiness test `if (event)`, and the empty string is falsy, so
`clear("")` clears the whole map: the listeners of event "a" are lost. -/
theorem clear_empty_string_clears_all :
    mapGet (removeAllListeners ⟨[("", [Value.fn 0]), ("a", [Value.fn 1])]⟩
        (some "")).events "a" ≠
      mapGet (⟨[("", [Value.fn 0]), ("a", [Value.fn 1])]⟩ :
        EventEmitter).events "a" := by
  decide

/-- C1 (amended): for every well-formed emitter state and every
non-empty event-name string, `clear(eventName)` deletes exactly that key
from the mapping if present (and is a no-op if absent), while every
other event's listener sequence remains unchanged and dispatchable;
`clear("")` instead behaves like `clear()` with no argument. -/
theorem clear_event_frame (e : EventEmitter) (s : String) (hs : s ≠ "")
    (hwf : WFMap e.events) :
    mapGet (removeAllListeners e (some s)).events s = none ∧
    (mapGet e.events s = none → removeAllListeners e (some s) = e) ∧
    (∀ q, q ≠ s →
      mapGet (removeAllListeners e (some s)).events q = mapGet e.events q ∧
      ∀ beh args, emit beh (removeAllListeners e (some s)) q args =
        emit beh e q args) := by
  rw [removeAllListeners_some e s hs]
  refine ⟨mapGet_mapDelete_self e.events s hwf, ?_, ?_⟩
  · intro h
    rw [mapDelete_not_mem e.events s h]
  · intro q hq
    have hget : mapGet (mapDelete e.events s) q = mapGet e.events q :=
      mapGet_mapDelete_ne e.events s q hq
    exact ⟨hget, fun beh args => emit_congr beh _ e q args hget⟩

/-- C1 witness for the amended claim, at a concrete two-event emitter. -/
theorem clear_event_frame_witness :
    mapGet (removeAllListeners ⟨[("a", [Value.fn 0]), ("b", [Value.fn 1])]⟩
        (some "a")).events "b" =
      mapGet (⟨[("a", [Value.fn 0]), ("b", [Value.fn 1])]⟩ :
        EventEmitter).events "b" :=
  ((clear_event_frame ⟨[("a", [Value.fn 0]), ("b", [Value.fn 1])]⟩ "a"
      (by decide) (by unfold WFMap keysOf; decide)).2.2 "b" (by decide)).1

/-- C2: a listener that throws during dispatch has its error caught at
that single invocation and reported through `console.error`; dispatch
itself always returns normally, and every listener of the sequence is
still invoked, in order. -/
theorem dispatch_isolates_listener_errors :
    (∀ beh e ev args, ∃ r, emit beh e ev args = Except.ok r) ∧
    (∀ beh e ev args ls, mapGet e.events ev = some ls → ls ≠ [] →
      ∃ t, emit beh e ev args = Except.ok (true, t) ∧
        calledValues t = ls ∧
        ∀ v ∈ ls, ∀ err, callListener beh args v = Except.error err →
          TraceEntry.errorReport ev err ∈ t) := by
  constructor
  · intro beh e ev args
    cases hget : mapGet e.events ev with
    | none => exact ⟨(false, []), by simp only [emit, hget]⟩
    | some ls =>
      by_cases h : ls.length = 0
      · exact ⟨(false, []), by simp only [emit, hget, if_pos h]⟩
      · exact ⟨(true, emitLoop beh ev args ls),
          by simp only [emit, hget, if_neg h]⟩
  · intro beh e ev args ls h hne
    refine ⟨emitLoop beh ev args ls, emit_nonempty beh e ev args ls h hne,
      calledValues_emitLoop beh ev args ls, ?_⟩
    intro v hv err herr
    exact errorReport_mem_emitLoop beh ev args ls v err hv herr

/-- C2 witness: with two listeners where the first throws "boom", the
dispatch returns normally, both listeners are invoked, and the error is
reported. -/
theorem dispatch_isolates_listener_errors_witness :
    ∃ t, emit behBoom ⟨[("x", [Value.fn 0, Value.fn 1])]⟩ "x" [7] =
        Except.ok (true, t) ∧
      calledValues t = [Value.fn 0, Value.fn 1] ∧
      ∀ v ∈ [Value.fn 0, Value.fn 1], ∀ err,
        callListener behBoom [7] v = Except.error err →
        TraceEntry.errorReport "x" err ∈ t :=
  dispatch_isolates_listener_errors.2 behBoom
    ⟨[("x", [Value.fn 0, Value.fn 1])]⟩ "x" [7] [Value.fn 0, Value.fn 1]
    (by decide) (by decide)

/-- C3: dispatch returns `false` and invokes no listener when the event
has no (non-empty) sequence; otherwise it invokes every listener of the
sequence exactly once, in registration order, with the forwarded
arguments, and returns `true`. -/
theorem dispatch_returns_and_invokes :
    (∀ beh e ev args, mapGet e.events ev = none →
      emit beh e ev args = Except.ok (false, [])) ∧
    (∀ beh e ev args, mapGet e.events ev = some [] →
      emit beh e ev args = Except.ok (false, [])) ∧
    (∀ beh e ev args ls, mapGet e.events ev = some ls → ls ≠ [] →
      ∃ t, emit beh e ev args = Except.ok (true, t) ∧
        callsOf t = ls.map (fun v => (v, args))) := by
  refine ⟨?_, ?_, ?_⟩
  · intro beh e ev args h
    simp only [emit, h]
  · intro beh e ev args h
    simp [emit, h]
  · intro beh e ev args ls h hne
    exact ⟨emitLoop beh ev args ls, emit_nonempty beh e ev args ls h hne,
      callsOf_emitLoop beh ev args ls⟩

/-- C3 witness: an absent event dispatches to `false` with no
invocation; a one-listener event dispatches to `true` invoking it with
the forwarded argument. -/
theorem dispatch_returns_and_invokes_witness :
    emit behNone ⟨[("x", [Value.fn 0])]⟩ "y" [] = Except.ok (false, []) ∧
    ∃ t, emit behNone ⟨[("x", [Value.fn 0])]⟩ "x" [3] = Except.ok (true, t) ∧
      callsOf t = [(Value.fn 0, [3])] := by
  constructor
  · exact dispatch_returns_and_invokes.1 behNone ⟨[("x", [Value.fn 0])]⟩
      "y" [] (by decide)
  · have h := dispatch_returns_and_invokes.2.2 behNone
      ⟨[("x", [Value.fn 0])]⟩ "x" [3] [Value.fn 0] (by decide) (by decide)
    simpa using h

/-- C4: every state reachable from a fresh emitter through the public
interface satisfies the data-model invariant: every key present in the
mapping has a non-empty listener sequence, with each listener reference
occurring at most once in it. -/
theorem reachable_state_invariant (ops : List Op) : Invariant (runOps ops) :=
  (StrongInv_runOps ops).2

/-- C4 witness: the invariant at a concrete reachable state. -/
theorem reachable_state_invariant_witness :
    Invariant (runOps [Op.register "x" (Value.fn 0)]) :=
  reachable_state_invariant [Op.register "x" (Value.fn 0)]

/-- C5: registering a listener that is already present (by reference
identity) is a no-op on the mapping, still succeeds, and still returns
the emitter; a doubly-registered listener is invoked exactly once per
dispatch of that event. -/
theorem register_idempotent (e e1 : EventEmitter) (ev : String) (l : Value)
    (h : e.on ev l = Except.ok e1) :
    e1.on ev l = Except.ok e1 ∧
    (((mapGet e.events ev).getD []).count l ≤ 1 →
      ∀ beh args, ∃ t, emit beh e1 ev args = Except.ok (true, t) ∧
        (calledValues t).count l = 1) := by
  have hf := isFunction_of_on_ok e e1 ev l h
  rw [on_eq_ok e ev l hf] at h
  set ls := (mapGet e.events ev).getD [] with hls
  set ls1 := if l ∈ ls then ls else ls ++ [l] with hls1
  have he1 : e1.events = mapSet e.events ev ls1 :=
    (congrArg EventEmitter.events (Except.ok.inj h)).symm
  have hget1 : mapGet e1.events ev = some ls1 := by
    rw [he1]
    exact mapGet_mapSet_self _ _ _
  have hmem1 : l ∈ ls1 := by
    rw [hls1]
    by_cases hin : l ∈ ls <;> simp [hin]
  constructor
  · rw [on_eq_ok e1 ev l hf]
    simp only [hget1, Option.getD_some, if_pos hmem1]
    rw [mapSet_same e1.events ev ls1 hget1]
  · intro hcount beh args
    have hc1 : ls1.count l = 1 := by
      rw [hls1]
      by_cases hin : l ∈ ls
      · rw [if_pos hin]
        have hne0 : ls.count l ≠ 0 := fun h0 => (List.count_eq_zero.mp h0) hin
        omega
      · rw [if_neg hin, List.count_append,
          List.count_eq_zero.mpr hin]
        simp
    have hne : ls1 ≠ [] := List.ne_nil_of_mem hmem1
    refine ⟨emitLoop beh ev args ls1,
      emit_nonempty beh e1 ev args ls1 hget1 hne, ?_⟩
    rw [calledValues_emitLoop]
    exact hc1

/-- C5 witness: registering `fn 0` on a fresh emitter, a second
registration is a no-op and a dispatch invokes it exactly once. -/
theorem register_idempotent_witness :
    (⟨[("x", [Value.fn 0])]⟩ : EventEmitter).on "x" (Value.fn 0) =
      Except.ok (⟨[("x", [Value.fn 0])]⟩ : EventEmitter) ∧
    ∃ t, emit behNone ⟨[("x", [Value.fn 0])]⟩ "x" [] = Except.ok (true, t) ∧
      (calledValues t).count (Value.fn 0) = 1 := by
  have h := register_idempotent EventEmitter.new ⟨[("x", [Value.fn 0])]⟩
    "x" (Value.fn 0) (by rfl)
  exact ⟨h.1, h.2 (by decide) behNone []⟩

/-- C6: `register` raises exactly when the listener is not callable, it
raises the `TypeError` message of the source, the mapping is left
unchanged in that case, and with a callable listener it never raises. -/
theorem register_validates_listener (e : EventEmitter) (ev : String)
    (l : Value) :
    ((∃ msg, e.on ev l = Except.error msg) ↔ l.isFunction = false) ∧
    (l.isFunction = false →
      e.on ev l = Except.error "Listener must be a function" ∧
      applyOp e (Op.register ev l) = e) ∧
    (l.isFunction = true → ∃ e1, e.on ev l = Except.ok e1) := by
  refine ⟨⟨?_, ?_⟩, ?_, ?_⟩
  · rintro ⟨msg, hmsg⟩
    cases hf : l.isFunction with
    | false => rfl
    | true =>
      rw [on_eq_ok e ev l hf] at hmsg
      exact absurd hmsg (by simp)
  · intro hf
    exact ⟨_, on_eq_error e ev l hf⟩
  · intro hf
    refine ⟨on_eq_error e ev l hf, ?_⟩
    simp only [applyOp, on_eq_error e ev l hf]
  · intro hf
    exact ⟨_, on_eq_ok e ev l hf⟩

/-- C6 witness: registering the non-function value tagged 7 raises the
`TypeError` and leaves the one-event mapping unchanged. -/
theorem register_validates_listener_witness :
    (⟨[("x", [Value.fn 0])]⟩ : EventEmitter).on "x" (Value.notFn 7) =
      Except.error "Listener must be a function" ∧
    applyOp ⟨[("x", [Value.fn 0])]⟩ (Op.register "x" (Value.notFn 7)) =
      ⟨[("x", [Value.fn 0])]⟩ :=
  (register_validates_listener ⟨[("x", [Value.fn 0])]⟩ "x"
    (Value.notFn 7)).2.1 rfl

/-- C7: `unregister` is a silent no-op when the event has no sequence or
the listener is absent from it; when present it removes exactly the
first matching entry (`List.erase`), deleting the key entirely when the
sequence empties, after which re-dispatching the event returns `false`. -/
theorem unregister_spec (e : EventEmitter) (ev : String) (l : Value) :
    (mapGet e.events ev = none → off e ev l = e) ∧
    (∀ ls, mapGet e.events ev = some ls → l ∉ ls → off e ev l = e) ∧
    (∀ ls, mapGet e.events ev = some ls → l ∈ ls →
      (ls.erase l = [] → (off e ev l).events = mapDelete e.events ev) ∧
      (ls.erase l ≠ [] →
        (off e ev l).events = mapSet e.events ev (ls.erase l)) ∧
      (ls.erase l = [] → WFMap e.events →
        mapGet (off e ev l).events ev = none ∧
        ∀ beh args, emit beh (off e ev l) ev args =
          Except.ok (false, []))) := by
  refine ⟨off_eq_no_event e ev l, fun ls h hl => off_eq_not_found e ev l ls h hl, ?_⟩
  intro ls h hl
  rw [off_eq_found e ev l ls h hl]
  refine ⟨?_, ?_, ?_⟩
  · intro hnil
    rw [if_pos hnil]
  · intro hnil
    rw [if_neg hnil]
  · intro hnil hwf
    rw [if_pos hnil]
    have hnone : mapGet (mapDelete e.events ev) ev = none :=
      mapGet_mapDelete_self e.events ev hwf
    exact ⟨hnone, fun beh args => by simp only [emit, hnone]⟩

/-- C7 witness: removing the only listener of "x" deletes the key and a
re-dispatch of "x" returns `false`. -/
theorem unregister_spec_witness :
    (off ⟨[("x", [Value.fn 0])]⟩ "x" (Value.fn 0)).events =
      mapDelete [("x", [Value.fn 0])] "x" ∧
    emit behNone (off ⟨[("x", [Value.fn 0])]⟩ "x" (Value.fn 0)) "x" [] =
      Except.ok (false, []) := by
  have h := (unregister_spec ⟨[("x", [Value.fn 0])]⟩ "x" (Value.fn 0)).2.2
    [Value.fn 0] (by decide) (by decide)
  exact ⟨h.1 (by decide),
    (h.2.2 (by decide) (by unfold WFMap keysOf; decide)).2 behNone []⟩

/-- C8: `clear()` with the argument omitted returns the emitter to its
just-constructed empty state, and any subsequent dispatch returns
`false`. -/
theorem clear_all_resets (e : EventEmitter) :
    removeAllListeners e none = EventEmitter.new ∧
    ∀ beh ev args, emit beh (removeAllListeners e none) ev args =
      Except.ok (false, []) := by
  refine ⟨rfl, ?_⟩
  intro beh ev args
  rw [removeAllListeners_omitted]
  simp [emit, mapGet]

/-- C9: `unregister` performs no callability validation and never
raises: for an arbitrary value (callable or not) that is not in the
event's sequence, the call is a no-op returning the emitter.  In the
embedding `off` is a total function into `EventEmitter` because the
source of `off` contains no throwing operation. -/
theorem unregister_never_raises (e : EventEmitter) (ev : String) (l : Value)
    (h : l ∉ (mapGet e.events ev).getD []) : off e ev l = e := by
  cases hget : mapGet e.events ev with
  | none => exact off_eq_no_event e ev l hget
  | some ls =>
    refine off_eq_not_found e ev l ls hget ?_
    rw [hget] at h
    simpa using h

/-- C9 witness: unregistering a non-function value is accepted and is a
no-op. -/
theorem unregister_never_raises_witness :
    off ⟨[("x", [Value.fn 0])]⟩ "x" (Value.notFn 3) =
      ⟨[("x", [Value.fn 0])]⟩ :=
  unregister_never_raises ⟨[("x", [Value.fn 0])]⟩ "x" (Value.notFn 3)
    (by decide)

/-- C10: removing one listener from a sequence that holds others removes
only that entry and keeps the survivors in their original relative
order; subsequent dispatches invoke exactly the survivors, in order. -/
theorem unregister_preserves_order (e : EventEmitter) (ev : String)
    (l : Value) (ls : List Value) (h : mapGet e.events ev = some ls)
    (hl : l ∈ ls) (hrest : ls.erase l ≠ []) :
    mapGet (off e ev l).events ev = some (ls.erase l) ∧
    List.Sublist (ls.erase l) ls ∧
    (ls.erase l).length + 1 = ls.length ∧
    ∀ beh args, ∃ t, emit beh (off e ev l) ev args = Except.ok (true, t) ∧
      calledValues t = ls.erase l := by
  rw [off_eq_found e ev l ls h hl, if_neg hrest]
  refine ⟨mapGet_mapSet_self _ _ _, List.erase_sublist l ls, ?_, ?_⟩
  · have hpos : 0 < ls.length := List.length_pos.mpr (List.ne_nil_of_mem hl)
    rw [List.length_erase_of_mem hl]
    omega
  · intro beh args
    exact ⟨emitLoop beh ev args (ls.erase l),
      emit_nonempty beh _ ev args (ls.erase l) (mapGet_mapSet_self _ _ _) hrest,
      calledValues_emitLoop _ _ _ _⟩

/-- C10 witness: removing the middle of three listeners keeps the outer
two, in order. -/
theorem unregister_preserves_order_witness :
    mapGet (off ⟨[("x", [Value.fn 0, Value.fn 1, Value.fn 2])]⟩ "x"
        (Value.fn 1)).events "x" =
      some ([Value.fn 0, Value.fn 1, Value.fn 2].erase (Value.fn 1)) :=
  (unregister_preserves_order ⟨[("x", [Value.fn 0, Value.fn 1, Value.fn 2])]⟩
    "x" (Value.fn 1) [Value.fn 0, Value.fn 1, Value.fn 2] (by decide)
    (by decide) (by decide)).1

end EventEmitterSpec
